import Mathlib

/-!
Shallow embedding of `peekbuffer.go` (package `peekbuffer` of claytonsingh/golib).

The Go code wraps an `io.Reader` and adds lookahead: an internal `buffer`
(the pending bytes already pulled from the wrapped reader but not yet
consumed), a consuming bulk `Read`, a consuming `ReadByte`, a non-consuming
`Peek`, and `PeekByte` defined on top of `Peek`.

Modelling choices:
* Bytes are modelled as `Nat` (their numeric values are only moved around,
  never computed with).
* A Go `io.Reader` is modelled by the deterministic state machine `Src`:
  `Src.bytes d` is `bytes.NewReader(d)` (each call returns up to `cap` front
  bytes, or `(0, io.EOF)` once exhausted), and `Src.chunks cs e` is a
  scripted reader that serves the chunks of `cs` one call at a time and then
  always returns `(0, e)`; `Src.chunks [] e` is exactly the `ErrorReader`
  mock of `peekbuffer_test.go`.
* Go errors compared with `==`/`!=` against the sentinels `io.EOF` and
  `io.ErrUnexpectedEOF` are modelled by the inductive `Err` with decidable
  equality; `none` is Go's `nil` error.
* `io.ReadAtLeast` / `io.ReadFull` are translated from the Go standard
  library: a loop that keeps reading while fewer than `mn` bytes were
  obtained and no error occurred, followed by the two error fix-ups.  The
  loop is written with explicit fuel; the fuel `cap + s.count + 2` strictly
  dominates the number of iterations for every `Src` (each iteration either
  records an error, or obtains at least one byte, or consumes a scripted
  chunk), so the fueled function agrees with the unbounded Go loop.
* Go run-time panics (negative slice bound in `this.buffer[:have]`, negative
  index in `peeked[offset]`) are modelled by the `panic` constructors of
  `PeekResult` / `ByteResult`.
-/

namespace Golib

/-- Errors a modelled reader can produce: the two end-of-stream sentinels
`io.EOF` and `io.ErrUnexpectedEOF`, `io.ErrShortBuffer` (from `ReadAtLeast`),
and arbitrary other I/O failures distinguished by a code. -/
inductive Err where
  | eof
  | unexpectedEOF
  | shortBuffer
  | other (code : Nat)
deriving DecidableEq

/-- Deterministic models of the wrapped `io.Reader`. -/
inductive Src where
  | bytes (data : List Nat)
  | chunks (cs : List (List Nat)) (e : Err)
deriving DecidableEq

/-- One call `Read(p)` with `cap = len(p)`: returns the bytes written, the
error, and the advanced reader.  `Src.bytes` follows `bytes.Reader.Read`
(`(0, io.EOF)` when exhausted, otherwise up to `cap` front bytes and no
error); `Src.chunks` serves the head chunk (keeping any part that did not
fit) and, once out of chunks, always returns `(0, e)`. -/
def Src.read : Src → Nat → List Nat × Option Err × Src
  | Src.bytes d, cap =>
    if d.isEmpty then ([], some Err.eof, Src.bytes d)
    else (d.take cap, none, Src.bytes (d.drop cap))
  | Src.chunks [] e, _ => ([], some e, Src.chunks [] e)
  | Src.chunks (c :: cs) e, cap =>
    (c.take cap, none,
      Src.chunks (if (c.drop cap).isEmpty then cs else c.drop cap :: cs) e)

/-- Bound on the number of scripted states of a `Src`, used to size the fuel
of the `ReadAtLeast` loop. -/
def Src.count : Src → Nat
  | Src.bytes _ => 1
  | Src.chunks cs _ => cs.length + 1

/-- The loop of `io.ReadAtLeast`: `for n < min && err == nil { nn, err =
r.Read(buf[n:]); n += nn }`.  `acc` holds the bytes obtained so far
(`n = acc.length`), `cap` is `len(buf)`. -/
def readLoop : Nat → Src → Nat → Nat → List Nat → Option Err →
    List Nat × Option Err × Src
  | 0, s, _, _, acc, e => (acc, e, s)
  | fuel + 1, s, cap, mn, acc, e =>
    if acc.length < mn ∧ e = none then
      let r := s.read (cap - acc.length)
      readLoop fuel r.2.2 cap mn (acc ++ r.1) r.2.1
    else (acc, e, s)

/-- `io.ReadAtLeast(r, buf, mn)` with `cap = len(buf)`: the short-buffer
guard, the read loop, then the fix-ups `if n >= min { err = nil } else if
n > 0 && err == EOF { err = ErrUnexpectedEOF }`. -/
def readAtLeast (s : Src) (cap mn : Nat) : List Nat × Option Err × Src :=
  if cap < mn then ([], some Err.shortBuffer, s)
  else
    let r := readLoop (cap + s.count + 2) s cap mn [] none
    if mn ≤ r.1.length then (r.1, none, r.2.2)
    else if 0 < r.1.length ∧ r.2.1 = some Err.eof then
      (r.1, some Err.unexpectedEOF, r.2.2)
    else r

/-- `io.ReadFull(r, buf)` is `io.ReadAtLeast(r, buf, len(buf))`. -/
def readFull (s : Src) (len : Nat) : List Nat × Option Err × Src :=
  readAtLeast s len len

/-- `const FillPeekBufferSize = 4096` from `peekbuffer.go`. -/
def FillPeekBufferSize : Nat := 4096

/-- The `PeekBuffer` struct: the wrapped reader and the pending `buffer`. -/
structure PeekBuffer where
  reader : Src
  buffer : List Nat
deriving DecidableEq

/-- `NewPeekBuffer` wraps a reader with an empty pending buffer. -/
def NewPeekBuffer (reader : Src) : PeekBuffer := ⟨reader, []⟩

/-- Result of `Peek`: either a Go run-time panic, or the returned view, the
returned error, and the updated receiver state. -/
inductive PeekResult where
  | panic
  | ok (view : List Nat) (err : Option Err) (pb : PeekBuffer)
deriving DecidableEq

/-- Result of `ReadByte`/`PeekByte`: a panic, or the returned byte, error and
updated receiver state. -/
inductive ByteResult where
  | panic
  | ok (b : Nat) (err : Option Err) (pb : PeekBuffer)
deriving DecidableEq

/-- `Read(p)` with `plen = len(p)`: if the pending buffer is non-empty, copy
`min(plen, len(buffer))` front bytes out of it and drop them; otherwise a
single delegated `this.reader.Read(p)`, returned verbatim. -/
def PeekBuffer.Read (pb : PeekBuffer) (plen : Nat) :
    List Nat × Option Err × PeekBuffer :=
  if 0 < pb.buffer.length then
    let n := min plen pb.buffer.length
    (pb.buffer.take n, none, ⟨pb.reader, pb.buffer.drop n⟩)
  else
    let r := pb.reader.read plen
    (r.1, r.2.1, ⟨r.2.2, pb.buffer⟩)

/-- `ReadByte()`: pop the front pending byte if there is one; otherwise pull
a batch of `FillPeekBufferSize` bytes with `io.ReadAtLeast(reader, buf, 1)`,
and on `n > 0` append the pulled bytes and pop the front, else return the
zero byte with the pull's error. -/
def PeekBuffer.ReadByte (pb : PeekBuffer) : Nat × Option Err × PeekBuffer :=
  match pb.buffer with
  | b :: rest => (b, none, ⟨pb.reader, rest⟩)
  | [] =>
    let r := readAtLeast pb.reader FillPeekBufferSize 1
    match r.1 with
    | b :: rest => (b, none, ⟨r.2.2, rest⟩)
    | [] => (0, r.2.1, ⟨r.2.2, []⟩)

/-- Round a positive shortfall up to the next multiple of
`FillPeekBufferSize`, as `((need + FillPeekBufferSize - 1) /
FillPeekBufferSize) * FillPeekBufferSize` (Go `int` division on positive
operands coincides with `Nat` division). -/
def roundUpFill (need : Nat) : Nat :=
  ((need + FillPeekBufferSize - 1) / FillPeekBufferSize) * FillPeekBufferSize

/-- Number of bytes `Peek(size)` requests from the source when the pending
buffer holds `blen` bytes: zero when no shortfall, otherwise the shortfall
rounded up to a multiple of `FillPeekBufferSize`. -/
def peekPull (blen : Nat) (size : Int) : Nat :=
  if size.toNat ≤ blen then 0 else roundUpFill (size.toNat - blen)

/-- The tail of `Peek` after the optional pull: append whatever was pulled,
compute `have = min(size, len(buffer))`, panic on a negative slice bound,
and apply the error policy (the two end-of-stream sentinels are not errors
at the `Peek` level; anything else is surfaced). -/
def peekFinish (size : Int) (buffer : List Nat)
    (pulled : List Nat × Option Err × Src) : PeekResult :=
  let buf := buffer ++ pulled.1
  let hv : Int := min size (buf.length : Int)
  if hv < 0 then PeekResult.panic
  else
    match pulled.2.1 with
    | some e =>
      if e = Err.eof ∨ e = Err.unexpectedEOF then
        PeekResult.ok (buf.take hv.toNat) none ⟨pulled.2.2, buf⟩
      else PeekResult.ok (buf.take hv.toNat) (some e) ⟨pulled.2.2, buf⟩
    | none => PeekResult.ok (buf.take hv.toNat) none ⟨pulled.2.2, buf⟩

/-- `Peek(size)`: when the shortfall `size - len(buffer)` is positive, pull
`roundUpFill` of it with `io.ReadFull`, then finish as in the Go code. -/
def PeekBuffer.Peek (pb : PeekBuffer) (size : Int) : PeekResult :=
  if 0 < size - (pb.buffer.length : Int) then
    peekFinish size pb.buffer
      (readFull pb.reader (roundUpFill (size - (pb.buffer.length : Int)).toNat))
  else
    peekFinish size pb.buffer ([], none, pb.reader)

/-- `PeekByte(offset)`: `Peek(offset + 1)`, propagate a `Peek` error with a
zero byte, report `io.EOF` when the view is too short, otherwise index the
view (a negative index at that point is a Go run-time panic). -/
def PeekBuffer.PeekByte (pb : PeekBuffer) (offset : Int) : ByteResult :=
  match pb.Peek (offset + 1) with
  | PeekResult.panic => ByteResult.panic
  | PeekResult.ok peeked err pb' =>
    match err with
    | some e => ByteResult.ok 0 (some e) pb'
    | none =>
      if (peeked.length : Int) ≤ offset then ByteResult.ok 0 (some Err.eof) pb'
      else if offset < 0 then ByteResult.panic
      else ByteResult.ok (peeked.getD offset.toNat 0) none pb'

/-- One operation of a client call sequence. -/
inductive Op where
  | read (plen : Nat)
  | readByte
  | peek (size : Nat)
  | peekByte (off : Nat)
deriving DecidableEq

/-- State after `Peek` with a nonnegative size (which never panics; the
`panic` arm is dead code kept only for totality). -/
def peekState (pb : PeekBuffer) (size : Nat) : PeekBuffer :=
  match pb.Peek (size : Int) with
  | PeekResult.panic => pb
  | PeekResult.ok _ _ pb' => pb'

/-- State after `PeekByte` with a nonnegative offset (never panics). -/
def peekByteState (pb : PeekBuffer) (off : Nat) : PeekBuffer :=
  match pb.PeekByte (off : Int) with
  | ByteResult.panic => pb
  | ByteResult.ok _ _ pb' => pb'

/-- Run a call sequence, concatenating the bytes returned by the consuming
calls (`Read` contributes the bytes it wrote; `ReadByte` contributes its
byte exactly when it succeeded; peeks contribute nothing). -/
def runOps : PeekBuffer → List Op → List Nat × PeekBuffer
  | pb, [] => ([], pb)
  | pb, Op.read n :: ops =>
    let r := pb.Read n
    let rest := runOps r.2.2 ops
    (r.1 ++ rest.1, rest.2)
  | pb, Op.readByte :: ops =>
    let r := pb.ReadByte
    let rest := runOps r.2.2 ops
    ((if r.2.1 = none then [r.1] else []) ++ rest.1, rest.2)
  | pb, Op.peek n :: ops => runOps (peekState pb n) ops
  | pb, Op.peekByte n :: ops => runOps (peekByteState pb n) ops

/-- Mutating position `i` of the view returned by `Peek` through the alias:
the view is `buffer[:have]`, so the store lands in `buffer[i]`. -/
def mutatePeeked (pb : PeekBuffer) (i : Nat) (w : Nat) : PeekBuffer :=
  ⟨pb.reader, pb.buffer.set i w⟩

/-- The views returned by a chain of `Peek` calls with the given sizes. -/
def peekViews : PeekBuffer → List Nat → List (List Nat)
  | _, [] => []
  | pb, n :: ns =>
    match pb.Peek (n : Int) with
    | PeekResult.panic => []
    | PeekResult.ok v _ pb' => v :: peekViews pb' ns

end Golib

namespace Golib

/-! ### Arithmetic helpers -/

theorem roundUpFill_le (n : Nat) : n ≤ roundUpFill n := by
  unfold roundUpFill FillPeekBufferSize
  have h1 := Nat.div_add_mod (n + 4096 - 1) 4096
  have h2 : (n + 4096 - 1) % 4096 < 4096 := Nat.mod_lt _ (by norm_num)
  omega

theorem roundUpFill_pos (n : Nat) (h : 0 < n) : 0 < roundUpFill n :=
  Nat.lt_of_lt_of_le h (roundUpFill_le n)

/-! ### List helpers -/

theorem take_min_length {α : Type} (l : List α) (n : Nat) :
    l.take (min n l.length) = l.take n := by
  rcases Nat.le_total n l.length with h | h
  · rw [Nat.min_eq_left h]
  · rw [Nat.min_eq_right h, List.take_length, List.take_of_length_le h]

theorem prefix_total {α : Type} {l₁ l₂ l₃ : List α}
    (h1 : l₁ <+: l₃) (h2 : l₂ <+: l₃) : l₁ <+: l₂ ∨ l₂ <+: l₁ := by
  rcases Nat.le_total l₁.length l₂.length with h | h
  · left
    have e1 : l₁ = l₃.take l₁.length := List.prefix_iff_eq_take.mp h1
    have e2 : l₂ = l₃.take l₂.length := List.prefix_iff_eq_take.mp h2
    rw [List.prefix_iff_eq_take]
    rw [e2, List.take_take, Nat.min_eq_left h, ← e1]
  · right
    have e1 : l₁ = l₃.take l₁.length := List.prefix_iff_eq_take.mp h1
    have e2 : l₂ = l₃.take l₂.length := List.prefix_iff_eq_take.mp h2
    rw [List.prefix_iff_eq_take]
    rw [e1, List.take_take, Nat.min_eq_left h, ← e2]

/-! ### Closed form of the full pull on a `bytes` source -/

theorem readLoop_stop (fuel : Nat) (s : Src) (cap mn : Nat) (acc : List Nat)
    (e : Option Err) (h : ¬(acc.length < mn ∧ e = none)) :
    readLoop fuel s cap mn acc e = (acc, e, s) := by
  cases fuel <;> simp [readLoop, h]

theorem readLoop_bytes (fuel : Nat) (hf : 2 ≤ fuel) (d : List Nat)
    (cap mn : Nat) (hmn : 0 < mn) (hcap : mn ≤ cap) :
    readLoop fuel (Src.bytes d) cap mn [] none =
      (d.take cap, if mn ≤ min cap d.length then none else some Err.eof,
        Src.bytes (d.drop cap)) := by
  obtain ⟨f, rfl⟩ : ∃ f, fuel = f + 1 + 1 := ⟨fuel - 2, by omega⟩
  rw [readLoop]
  rw [if_pos (by simpa using hmn)]
  rcases eq_or_ne d [] with rfl | hd
  · simp only [Src.read, List.isEmpty_nil, if_true]
    rw [readLoop_stop _ _ _ _ _ _ (by simp)]
    simp
    omega
  · have hde : d.isEmpty = false := by simpa [List.isEmpty_iff] using hd
    simp only [Src.read, hde, Bool.false_eq_true, if_false, List.length_nil,
      Nat.sub_zero, List.nil_append]
    rcases Nat.lt_or_ge d.length mn with hlen | hlen
    · have htake : d.take cap = d := List.take_of_length_le (by omega)
      have hdrop : d.drop cap = [] := List.drop_eq_nil_of_le (by omega)
      rw [htake, hdrop, readLoop]
      rw [if_pos (by exact ⟨hlen, rfl⟩)]
      simp only [Src.read, List.isEmpty_nil, if_true, List.append_nil]
      rw [readLoop_stop _ _ _ _ _ _ (by simp)]
      have hc : ¬ mn ≤ min cap d.length := by omega
      simp [hc]
    · have hstop : ¬ ((d.take cap).length < mn ∧ (none : Option Err) = none) := by
        simp only [List.length_take]
        omega
      rw [readLoop_stop _ _ _ _ _ _ hstop]
      have hc : mn ≤ min cap d.length := by omega
      simp [hc] 

theorem readAtLeast_bytes (d : List Nat) (cap mn : Nat) (hmn : 0 < mn)
    (hcap : mn ≤ cap) :
    readAtLeast (Src.bytes d) cap mn =
      (d.take cap,
        if mn ≤ d.length then none
        else if d = [] then some Err.eof else some Err.unexpectedEOF,
        Src.bytes (d.drop cap)) := by
  unfold readAtLeast
  rw [if_neg (by omega)]
  rw [readLoop_bytes _ (by simp only [Src.count]; omega) _ _ _ hmn hcap]
  rcases Nat.lt_or_ge d.length mn with hlen | hlen
  · have hc : ¬ mn ≤ min cap d.length :=
      Nat.not_le.mpr (Nat.lt_of_le_of_lt (Nat.min_le_right _ _) hlen)
    simp only [hc, if_false, List.length_take]
    rcases eq_or_ne d [] with rfl | hd
    · simp
      omega
    · have hpos : 0 < d.length := List.length_pos.mpr hd
      have hc2 : 0 < min cap d.length := by
        have h1 : 0 < cap := Nat.lt_of_lt_of_le hmn hcap
        exact Nat.lt_min.mpr ⟨h1, hpos⟩
      simp [hc2, hd]
      omega
  · have hc : mn ≤ min cap d.length := Nat.le_min.mpr ⟨hcap, hlen⟩
    simp [hc, hlen]

theorem readFull_bytes (d : List Nat) (m : Nat) (hm : 0 < m) :
    readFull (Src.bytes d) m =
      (d.take m,
        if m ≤ d.length then none
        else if d = [] then some Err.eof else some Err.unexpectedEOF,
        Src.bytes (d.drop m)) :=
  readAtLeast_bytes d m m hm le_rfl

/-! ### Behaviour of `peekFinish` and `Peek` -/

theorem peekFinish_panic (size : Int) (h : size < 0) (buffer : List Nat)
    (pulled : List Nat × Option Err × Src) :
    peekFinish size buffer pulled = PeekResult.panic := by
  unfold peekFinish
  rw [if_pos (by omega)]

theorem peekFinish_ok_none (size : Int) (h : 0 ≤ size) (buffer : List Nat)
    (pulled : List Nat × Option Err × Src) (he : pulled.2.1 = none) :
    peekFinish size buffer pulled =
      PeekResult.ok ((buffer ++ pulled.1).take size.toNat) none
        ⟨pulled.2.2, buffer ++ pulled.1⟩ := by
  unfold peekFinish
  rw [if_neg (by omega)]
  rw [he]
  have ht : (min size ((buffer ++ pulled.1).length : Int)).toNat =
      min size.toNat (buffer ++ pulled.1).length := by omega
  rw [ht, take_min_length]

theorem peekFinish_ok_eofish (size : Int) (h : 0 ≤ size) (buffer : List Nat)
    (pulled : List Nat × Option Err × Src) (e : Err)
    (he : pulled.2.1 = some e) (hee : e = Err.eof ∨ e = Err.unexpectedEOF) :
    peekFinish size buffer pulled =
      PeekResult.ok ((buffer ++ pulled.1).take size.toNat) none
        ⟨pulled.2.2, buffer ++ pulled.1⟩ := by
  unfold peekFinish
  rw [if_neg (by omega)]
  rw [he]
  have ht : (min size ((buffer ++ pulled.1).length : Int)).toNat =
      min size.toNat (buffer ++ pulled.1).length := by omega
  simp only [if_pos hee, ht, take_min_length]

theorem peekFinish_ok_err (size : Int) (h : 0 ≤ size) (buffer : List Nat)
    (pulled : List Nat × Option Err × Src) (e : Err)
    (he : pulled.2.1 = some e) (h1 : e ≠ Err.eof) (h2 : e ≠ Err.unexpectedEOF) :
    peekFinish size buffer pulled =
      PeekResult.ok ((buffer ++ pulled.1).take size.toNat) (some e)
        ⟨pulled.2.2, buffer ++ pulled.1⟩ := by
  unfold peekFinish
  rw [if_neg (by omega)]
  rw [he]
  have ht : (min size ((buffer ++ pulled.1).length : Int)).toNat =
      min size.toNat (buffer ++ pulled.1).length := by omega
  have hne : ¬ (e = Err.eof ∨ e = Err.unexpectedEOF) := by
    intro hc
    rcases hc with hc | hc
    · exact h1 hc
    · exact h2 hc
  simp only [if_neg hne, ht, take_min_length]

theorem peekFinish_ok_inv (size : Int) (buffer : List Nat)
    (pulled : List Nat × Option Err × Src) (v : List Nat) (e : Option Err)
    (pb' : PeekBuffer)
    (h : peekFinish size buffer pulled = PeekResult.ok v e pb') :
    0 ≤ size ∧ pb' = ⟨pulled.2.2, buffer ++ pulled.1⟩ ∧
      v = (buffer ++ pulled.1).take size.toNat ∧
      (∀ x, e = some x → x ≠ Err.eof ∧ x ≠ Err.unexpectedEOF) := by
  rcases Int.lt_or_le size 0 with hs | hs
  · rw [peekFinish_panic size hs] at h
    exact absurd h (by simp)
  · refine ⟨hs, ?_⟩
    rcases hp : pulled.2.1 with _ | x
    · rw [peekFinish_ok_none size hs buffer pulled hp] at h
      injection h with h1 h2 h3
      refine ⟨h3.symm, h1.symm, ?_⟩
      intro y hy
      rw [← h2] at hy
      exact absurd hy (by simp)
    · by_cases hx : x = Err.eof ∨ x = Err.unexpectedEOF
      · rw [peekFinish_ok_eofish size hs buffer pulled x hp hx] at h
        injection h with h1 h2 h3
        refine ⟨h3.symm, h1.symm, ?_⟩
        intro y hy
        rw [← h2] at hy
        exact absurd hy (by simp)
      · push_neg at hx
        rw [peekFinish_ok_err size hs buffer pulled x hp hx.1 hx.2] at h
        injection h with h1 h2 h3
        refine ⟨h3.symm, h1.symm, ?_⟩
        intro y hy
        rw [← h2] at hy
        injection hy with hy
        subst hy
        exact hx

theorem Peek_neg_panic (pb : PeekBuffer) (size : Int) (h : size < 0) :
    pb.Peek size = PeekResult.panic := by
  unfold PeekBuffer.Peek
  rw [if_neg (by omega)]
  exact peekFinish_panic size h _ _

theorem Peek_ok_inv (pb : PeekBuffer) (size : Int) (v : List Nat)
    (e : Option Err) (pb' : PeekBuffer)
    (h : pb.Peek size = PeekResult.ok v e pb') :
    0 ≤ size ∧ (∃ t, pb'.buffer = pb.buffer ++ t) ∧
      v = pb'.buffer.take size.toNat ∧
      (∀ x, e = some x → x ≠ Err.eof ∧ x ≠ Err.unexpectedEOF) := by
  unfold PeekBuffer.Peek at h
  by_cases hc : 0 < size - (pb.buffer.length : Int)
  · rw [if_pos hc] at h
    obtain ⟨h0, hpb, hv, he⟩ := peekFinish_ok_inv _ _ _ _ _ _ h
    exact ⟨h0, ⟨_, by rw [hpb]⟩, by rw [hv, hpb], he⟩
  · rw [if_neg hc] at h
    obtain ⟨h0, hpb, hv, he⟩ := peekFinish_ok_inv _ _ _ _ _ _ h
    exact ⟨h0, ⟨_, by rw [hpb]⟩, by rw [hv, hpb], he⟩

theorem Peek_nonneg_ok (pb : PeekBuffer) (size : Int) (h : 0 ≤ size) :
    ∃ v e pb', pb.Peek size = PeekResult.ok v e pb' := by
  unfold PeekBuffer.Peek
  by_cases hc : 0 < size - (pb.buffer.length : Int)
  · rw [if_pos hc]
    rcases hp : (readFull pb.reader
        (roundUpFill (size - (pb.buffer.length : Int)).toNat)).2.1 with _ | x
    · exact ⟨_, _, _, peekFinish_ok_none size h _ _ hp⟩
    · by_cases hx : x = Err.eof ∨ x = Err.unexpectedEOF
      · exact ⟨_, _, _, peekFinish_ok_eofish size h _ _ x hp hx⟩
      · push_neg at hx
        exact ⟨_, _, _, peekFinish_ok_err size h _ _ x hp hx.1 hx.2⟩
  · rw [if_neg hc]
    exact ⟨_, _, _, peekFinish_ok_none size h _ _ rfl⟩

theorem Peek_bytes (b r : List Nat) (size : Int) (h0 : 0 ≤ size) :
    PeekBuffer.Peek ⟨Src.bytes r, b⟩ size =
      PeekResult.ok
        ((b ++ r.take (peekPull b.length size)).take size.toNat) none
        ⟨Src.bytes (r.drop (peekPull b.length size)),
          b ++ r.take (peekPull b.length size)⟩ := by
  unfold PeekBuffer.Peek
  by_cases hc : 0 < size - (((⟨Src.bytes r, b⟩ : PeekBuffer).buffer).length : Int)
  · rw [if_pos hc]
    have hb : (⟨Src.bytes r, b⟩ : PeekBuffer).buffer = b := rfl
    have hrd : (⟨Src.bytes r, b⟩ : PeekBuffer).reader = Src.bytes r := rfl
    rw [hb] at hc ⊢
    rw [hrd]
    have hlt : b.length < size.toNat := by omega
    have hk : peekPull b.length size = roundUpFill (size.toNat - b.length) := by
      unfold peekPull
      rw [if_neg (by omega)]
    have hneed : (size - (b.length : Int)).toNat = size.toNat - b.length := by
      omega
    rw [hneed]
    have hkpos : 0 < roundUpFill (size.toNat - b.length) :=
      roundUpFill_pos _ (by omega)
    rw [readFull_bytes r _ hkpos]
    rcases Nat.lt_or_ge r.length (roundUpFill (size.toNat - b.length)) with hr | hr
    · rcases eq_or_ne r [] with rfl | hrne
      · rw [peekFinish_ok_eofish size h0 _ _ Err.eof
          (by simp [List.length_nil]; omega) (Or.inl rfl)]
        simp [hk]
      · rw [peekFinish_ok_eofish size h0 _ _ Err.unexpectedEOF
          (by simp [hrne]; omega) (Or.inr rfl)]
        simp [hk]
    · rw [peekFinish_ok_none size h0 _ _ (by simp; omega)]
      simp [hk]
  · rw [if_neg hc]
    have hb : (⟨Src.bytes r, b⟩ : PeekBuffer).buffer = b := rfl
    rw [hb] at hc ⊢
    have hle : size.toNat ≤ b.length := by omega
    have hk : peekPull b.length size = 0 := by
      unfold peekPull
      rw [if_pos hle]
    rw [peekFinish_ok_none size h0 _ _ rfl]
    simp [hk]

theorem Peek_zero (pb : PeekBuffer) :
    pb.Peek 0 = PeekResult.ok [] none ⟨pb.reader, pb.buffer⟩ := by
  unfold PeekBuffer.Peek
  rw [if_neg (by omega)]
  rw [peekFinish_ok_none 0 le_rfl _ _ rfl]
  simp

theorem PeekByte_neg_panic (pb : PeekBuffer) (off : Int) (h : off < 0) :
    pb.PeekByte off = ByteResult.panic := by
  unfold PeekBuffer.PeekByte
  rcases Int.lt_or_le (off + 1) 0 with h1 | h1
  · rw [Peek_neg_panic _ _ h1]
  · have hoff : off = -1 := by omega
    subst hoff
    norm_num
    rw [Peek_zero]
    simp

theorem PeekByte_nonneg_no_panic (pb : PeekBuffer) (off : Int) (h : 0 ≤ off) :
    pb.PeekByte off ≠ ByteResult.panic := by
  unfold PeekBuffer.PeekByte
  obtain ⟨v, e, pb', hp⟩ := Peek_nonneg_ok pb (off + 1) (by omega)
  rw [hp]
  rcases e with _ | x
  · simp only []
    by_cases hl : (v.length : Int) ≤ off
    · rw [if_pos hl]
      simp
    · rw [if_neg hl, if_neg (by omega)]
      simp
  · simp

/-! ### Claim theorems -/

/-- C2: Peek end-of-stream benignity and exact remaining length.  For every
`PeekBuffer` state over a byte source — pending buffer `b`, remaining source
bytes `r` — and every requested `size` larger than all the remaining data
(so the source is exhausted before supplying the shortfall; a fresh
`PeekBuffer` over a length-`L` source with `size = L + k`, `k > 0`, is the
case `b = []`), `Peek(size)` returns a view of exactly the remaining bytes
`b ++ r` and a nil error: the end-of-stream and end-of-stream-mid-pull
outcomes of the pull are never surfaced as `Peek` errors. -/
theorem C2_peek_past_end_benign (b r : List Nat) (size : Int)
    (h : ((b.length + r.length : Nat) : Int) < size) :
    PeekBuffer.Peek ⟨Src.bytes r, b⟩ size =
      PeekResult.ok (b ++ r) none ⟨Src.bytes [], b ++ r⟩ := by
  have h0 : (0 : Int) ≤ size := by omega
  rw [Peek_bytes b r size h0]
  have hlt : b.length < size.toNat := by omega
  have hk : peekPull b.length size = roundUpFill (size.toNat - b.length) := by
    unfold peekPull
    rw [if_neg (by omega)]
  have hrk : r.length ≤ peekPull b.length size := by
    rw [hk]
    have := roundUpFill_le (size.toNat - b.length)
    omega
  rw [List.take_of_length_le hrk, List.drop_eq_nil_of_le hrk]
  rw [List.take_of_length_le (by simp [List.length_append]; omega)]

/-- Witness for C2 at `b = []`, `r = [5]`, `size = 2`. -/
theorem C2_peek_past_end_benign_witness :
    ((((([] : List Nat).length + ([5] : List Nat).length : Nat)) : Int) < 2) ∧
      PeekBuffer.Peek ⟨Src.bytes [5], []⟩ 2 =
        PeekResult.ok [5] none ⟨Src.bytes [], [5]⟩ :=
  ⟨by decide, C2_peek_past_end_benign [] [5] 2 (by decide)⟩

/-- C9: negative arguments panic; nonnegative arguments never panic.
`Peek(size)` with `size < 0` reaches `this.buffer[:have]` with
`have = size < 0` and panics; `PeekByte(offset)` with `offset < 0` panics
(through `Peek(offset + 1)` when `offset ≤ -2`, through the index
expression `peeked[offset]` when `offset = -1`).  Under the preconditions
`size ≥ 0` and `offset ≥ 0` every slicing and indexing operation in `Peek`
and `PeekByte` stays in bounds and neither operation panics. -/
theorem C9_negative_args_panic :
    (∀ (pb : PeekBuffer) (size : Int), size < 0 →
      pb.Peek size = PeekResult.panic) ∧
    (∀ (pb : PeekBuffer) (off : Int), off < 0 →
      pb.PeekByte off = ByteResult.panic) ∧
    (∀ (pb : PeekBuffer) (size : Int), 0 ≤ size →
      pb.Peek size ≠ PeekResult.panic) ∧
    (∀ (pb : PeekBuffer) (off : Int), 0 ≤ off →
      pb.PeekByte off ≠ ByteResult.panic) := by
  refine ⟨fun pb size h => Peek_neg_panic pb size h,
    fun pb off h => PeekByte_neg_panic pb off h,
    fun pb size h hc => ?_,
    fun pb off h => PeekByte_nonneg_no_panic pb off h⟩
  obtain ⟨v, e, pb', hp⟩ := Peek_nonneg_ok pb size h
  rw [hp] at hc
  exact absurd hc (by simp)

/-- Witness for C9 at a concrete one-byte source. -/
theorem C9_negative_args_panic_witness :
    ((-1 : Int) < 0 ∧ (0 : Int) ≤ 0) ∧
      PeekBuffer.Peek (NewPeekBuffer (Src.bytes [1])) (-1) =
        PeekResult.panic ∧
      PeekBuffer.PeekByte (NewPeekBuffer (Src.bytes [1])) (-1) =
        ByteResult.panic ∧
      PeekBuffer.Peek (NewPeekBuffer (Src.bytes [1])) 0 ≠ PeekResult.panic ∧
      PeekBuffer.PeekByte (NewPeekBuffer (Src.bytes [1])) 0 ≠
        ByteResult.panic :=
  ⟨⟨by decide, by decide⟩,
    C9_negative_args_panic.1 _ (-1) (by decide),
    C9_negative_args_panic.2.1 _ (-1) (by decide),
    C9_negative_args_panic.2.2.1 _ 0 (by decide),
    C9_negative_args_panic.2.2.2 _ 0 (by decide)⟩

/-- C10: Peek classifies end-of-stream by error value only.  Every error
`Peek` ever returns is distinct from `io.EOF` and `io.ErrUnexpectedEOF`;
in particular, for the test suite's `ErrorReader` whose genuine failure
mode is to always return `io.ErrUnexpectedEOF` with zero bytes
(`Src.chunks [] Err.unexpectedEOF`), `Peek(5)` swallows the error and
reports success with an empty view. -/
theorem C10_peek_eof_by_value :
    (∀ (pb : PeekBuffer) (size : Int) (v : List Nat) (e : Err)
      (pb' : PeekBuffer), pb.Peek size = PeekResult.ok v (some e) pb' →
      e ≠ Err.eof ∧ e ≠ Err.unexpectedEOF) ∧
    PeekBuffer.Peek (NewPeekBuffer (Src.chunks [] Err.unexpectedEOF)) 5 =
      PeekResult.ok [] none (NewPeekBuffer (Src.chunks [] Err.unexpectedEOF)) := by
  constructor
  · intro pb size v e pb' h
    obtain ⟨-, -, -, he⟩ := Peek_ok_inv pb size v (some e) pb' h
    exact he e rfl
  · decide

/-- Witness for C10's universally quantified part at a reader that fails
with a genuine (non-end-of-stream) error after one chunk. -/
theorem C10_peek_eof_by_value_witness :
    PeekBuffer.Peek (NewPeekBuffer (Src.chunks [] (Err.other 0))) 5 =
      PeekResult.ok [] (some (Err.other 0))
        (NewPeekBuffer (Src.chunks [] (Err.other 0))) ∧
      Err.other 0 ≠ Err.eof ∧ Err.other 0 ≠ Err.unexpectedEOF :=
  ⟨by decide,
    C10_peek_eof_by_value.1 (NewPeekBuffer (Src.chunks [] (Err.other 0))) 5 []
      (Err.other 0) (NewPeekBuffer (Src.chunks [] (Err.other 0)))
      (by decide)⟩

/-- C4: Read case analysis.  If the pending buffer is non-empty, `Read`
copies `min(len(buffer-arg), len(pending))` bytes from the front of the
pending buffer, removes exactly those bytes, returns that count with a nil
error, and leaves the wrapped reader untouched (no pull).  If the pending
buffer is empty, `Read` performs a single pull from the source and returns
its bytes and error verbatim. -/
theorem C4_read_case_analysis (pb : PeekBuffer) (plen : Nat) :
    (pb.buffer ≠ [] →
      pb.Read plen =
        (pb.buffer.take (min plen pb.buffer.length), none,
          ⟨pb.reader, pb.buffer.drop (min plen pb.buffer.length)⟩)) ∧
    (pb.buffer = [] →
      pb.Read plen =
        ((pb.reader.read plen).1, (pb.reader.read plen).2.1,
          ⟨(pb.reader.read plen).2.2, []⟩)) := by
  constructor
  · intro h
    unfold PeekBuffer.Read
    rw [if_pos (List.length_pos.mpr h)]
  · intro h
    unfold PeekBuffer.Read
    rw [if_neg (by simp [h])]
    rw [h]

/-- Witness for C4: both branches at concrete states. -/
theorem C4_read_case_analysis_witness :
    (([9, 8] : List Nat) ≠ [] ∧
      PeekBuffer.Read ⟨Src.bytes [7], [9, 8]⟩ 1 =
        ([9], none, ⟨Src.bytes [7], [8]⟩)) ∧
    (([] : List Nat) = [] ∧
      PeekBuffer.Read ⟨Src.bytes [7], []⟩ 5 =
        ([7], none, ⟨Src.bytes [], []⟩)) :=
  ⟨⟨by decide, by
      have h := (C4_read_case_analysis ⟨Src.bytes [7], [9, 8]⟩ 1).1 (by decide)
      simpa using h⟩,
    ⟨rfl, by
      have h := (C4_read_case_analysis ⟨Src.bytes [7], []⟩ 5).2 rfl
      simpa [Src.read] using h⟩⟩

/-- C5: ReadByte.  With a non-empty pending buffer, `ReadByte` pops and
returns the front byte with a nil error and no source pull.  With an empty
pending buffer it pulls a batch of `FillPeekBufferSize` (4096) bytes — a
fixed fill unit, not just one byte — requiring at least one; it succeeds,
returning the front pulled byte and buffering the rest, exactly when the
pull obtained at least one byte, and otherwise returns the zero byte with
the pull's error. -/
theorem C5_readbyte_case_analysis (pb : PeekBuffer) :
    (∀ c rest, pb.buffer = c :: rest →
      pb.ReadByte = (c, none, ⟨pb.reader, rest⟩)) ∧
    (pb.buffer = [] →
      (∀ c rest e s',
        readAtLeast pb.reader FillPeekBufferSize 1 = (c :: rest, e, s') →
        pb.ReadByte = (c, none, ⟨s', rest⟩)) ∧
      (∀ e s',
        readAtLeast pb.reader FillPeekBufferSize 1 = ([], e, s') →
        pb.ReadByte = (0, e, ⟨s', []⟩))) := by
  constructor
  · intro c rest h
    unfold PeekBuffer.ReadByte
    rw [h]
  · intro h
    constructor
    · intro c rest e s' hp
      unfold PeekBuffer.ReadByte
      rw [h]
      simp only [hp]
    · intro e s' hp
      unfold PeekBuffer.ReadByte
      rw [h]
      simp only [hp]

/-- Witness for C5: the pop branch, the successful-pull branch and the
failed-pull branch at concrete states. -/
theorem C5_readbyte_case_analysis_witness :
    PeekBuffer.ReadByte ⟨Src.bytes [7], [9, 8]⟩ =
        (9, none, ⟨Src.bytes [7], [8]⟩) ∧
      PeekBuffer.ReadByte ⟨Src.bytes [7, 6], []⟩ =
        (7, none, ⟨Src.bytes [], [6]⟩) ∧
      PeekBuffer.ReadByte ⟨Src.bytes [], []⟩ =
        (0, some Err.eof, ⟨Src.bytes [], []⟩) :=
  ⟨(C5_readbyte_case_analysis ⟨Src.bytes [7], [9, 8]⟩).1 9 [8] rfl,
    ((C5_readbyte_case_analysis ⟨Src.bytes [7, 6], []⟩).2 rfl).1 7 [6] none
      (Src.bytes []) (by decide),
    ((C5_readbyte_case_analysis ⟨Src.bytes [], []⟩).2 rfl).2 (some Err.eof)
      (Src.bytes []) (by decide)⟩

/-- C6: Peek non-end-of-stream error surfacing with partial progress kept.
Whenever `Peek(size)` pulls (positive shortfall) and the pull fails with an
error other than the two end-of-stream variants, `Peek` returns exactly
that error together with the view over what was obtained, and the bytes the
pull did deliver before failing stay appended to the pending buffer of the
resulting state. -/
theorem C6_peek_error_keeps_partial (pb : PeekBuffer) (size : Int)
    (bs : List Nat) (e : Err) (s' : Src)
    (hneed : 0 < size - (pb.buffer.length : Int))
    (hpull : readFull pb.reader
        (roundUpFill (size - (pb.buffer.length : Int)).toNat) =
      (bs, some e, s'))
    (he1 : e ≠ Err.eof) (he2 : e ≠ Err.unexpectedEOF) :
    pb.Peek size =
      PeekResult.ok ((pb.buffer ++ bs).take size.toNat) (some e)
        ⟨s', pb.buffer ++ bs⟩ := by
  unfold PeekBuffer.Peek
  rw [if_pos hneed, hpull]
  have h0 : (0 : Int) ≤ size := by omega
  exact peekFinish_ok_err size h0 pb.buffer (bs, some e, s') e rfl he1 he2

/-- Witness for C6 at a reader that yields `[1, 2]` and then fails with a
genuine I/O error. -/
theorem C6_peek_error_keeps_partial_witness :
    ((0 : Int) <
        5 - ((NewPeekBuffer (Src.chunks [[1, 2]] (Err.other 0))).buffer.length :
          Int) ∧
      readFull (Src.chunks [[1, 2]] (Err.other 0)) (roundUpFill 5) =
        ([1, 2], some (Err.other 0), Src.chunks [] (Err.other 0))) ∧
      PeekBuffer.Peek (NewPeekBuffer (Src.chunks [[1, 2]] (Err.other 0))) 5 =
        PeekResult.ok [1, 2] (some (Err.other 0))
          ⟨Src.chunks [] (Err.other 0), [1, 2]⟩ := by
  refine ⟨⟨by decide, by decide⟩, ?_⟩
  have h := C6_peek_error_keeps_partial
    (NewPeekBuffer (Src.chunks [[1, 2]] (Err.other 0))) 5 [1, 2] (Err.other 0)
    (Src.chunks [] (Err.other 0)) (by decide) (by decide) (by decide) (by decide)
  simpa using h

/-- C7: PeekByte.  `PeekByte(offset)` is `Peek(offset + 1)`: a `Peek` error
is propagated with a zero byte; a view shorter than `offset + 1` is
upgraded to an explicit `io.EOF` even though `Peek` reported no error;
otherwise the byte at index `offset` of the view is returned.  In
particular, on a fresh `PeekBuffer` over a length-`L` byte source,
`PeekByte(L + j)` (`j ≥ 0`) reports end-of-stream and `PeekByte(L - 1)`
returns the last byte. -/
theorem C7_peekbyte_behaviour :
    (∀ (pb : PeekBuffer) (off : Int) (v : List Nat) (e : Err)
      (pb' : PeekBuffer), pb.Peek (off + 1) = PeekResult.ok v (some e) pb' →
      pb.PeekByte off = ByteResult.ok 0 (some e) pb') ∧
    (∀ (pb : PeekBuffer) (off : Int) (v : List Nat) (pb' : PeekBuffer),
      pb.Peek (off + 1) = PeekResult.ok v none pb' → (v.length : Int) ≤ off →
      pb.PeekByte off = ByteResult.ok 0 (some Err.eof) pb') ∧
    (∀ (pb : PeekBuffer) (off : Int) (v : List Nat) (pb' : PeekBuffer),
      0 ≤ off → pb.Peek (off + 1) = PeekResult.ok v none pb' →
      off < (v.length : Int) →
      pb.PeekByte off = ByteResult.ok (v.getD off.toNat 0) none pb') ∧
    (∀ (r : List Nat) (j : Nat),
      PeekBuffer.PeekByte (NewPeekBuffer (Src.bytes r))
          ((r.length + j : Nat) : Int) =
        ByteResult.ok 0 (some Err.eof) ⟨Src.bytes [], r⟩) ∧
    (∀ (r : List Nat) (hr : r ≠ []),
      PeekBuffer.PeekByte (NewPeekBuffer (Src.bytes r))
          ((r.length - 1 : Nat) : Int) =
        ByteResult.ok (r.getLast hr) none ⟨Src.bytes [], r⟩) := by
  have hprop : ∀ (pb : PeekBuffer) (off : Int) (v : List Nat) (e : Err)
      (pb' : PeekBuffer), pb.Peek (off + 1) = PeekResult.ok v (some e) pb' →
      pb.PeekByte off = ByteResult.ok 0 (some e) pb' := by
    intro pb off v e pb' hp
    unfold PeekBuffer.PeekByte
    rw [hp]
  have heof : ∀ (pb : PeekBuffer) (off : Int) (v : List Nat)
      (pb' : PeekBuffer),
      pb.Peek (off + 1) = PeekResult.ok v none pb' → (v.length : Int) ≤ off →
      pb.PeekByte off = ByteResult.ok 0 (some Err.eof) pb' := by
    intro pb off v pb' hp hl
    unfold PeekBuffer.PeekByte
    rw [hp]
    simp only [if_pos hl]
  have hgot : ∀ (pb : PeekBuffer) (off : Int) (v : List Nat)
      (pb' : PeekBuffer), 0 ≤ off →
      pb.Peek (off + 1) = PeekResult.ok v none pb' → off < (v.length : Int) →
      pb.PeekByte off = ByteResult.ok (v.getD off.toNat 0) none pb' := by
    intro pb off v pb' h0 hp hl
    unfold PeekBuffer.PeekByte
    rw [hp]
    simp only [if_neg (by omega : ¬ (v.length : Int) ≤ off),
      if_neg (by omega : ¬ off < 0)]
  have hfresh : ∀ (r : List Nat) (size : Int), (r.length : Int) ≤ size →
      0 ≤ size →
      PeekBuffer.Peek (NewPeekBuffer (Src.bytes r)) size =
        PeekResult.ok r none ⟨Src.bytes [], r⟩ := by
    intro r size hs h0
    have h := Peek_bytes [] r size h0
    have hk : r.length ≤ peekPull ([] : List Nat).length size := by
      unfold peekPull
      simp only [List.length_nil]
      by_cases hz : size.toNat ≤ 0
      · rw [if_pos hz]
        omega
      · rw [if_neg hz]
        have h1 := roundUpFill_le size.toNat
        have h2 : r.length ≤ size.toNat := by omega
        simp only [Nat.sub_zero]
        omega
    rw [List.take_of_length_le hk, List.drop_eq_nil_of_le hk,
      List.nil_append, List.take_of_length_le (by omega)] at h
    exact h
  refine ⟨hprop, heof, hgot, ?_, ?_⟩
  · intro r j
    have hp := hfresh r (((r.length + j : Nat) : Int) + 1) (by push_cast; omega)
      (by push_cast; omega)
    exact heof _ _ _ _ hp (by push_cast; omega)
  · intro r hr
    have hL : 0 < r.length := List.length_pos.mpr hr
    have hp := hfresh r (((r.length - 1 : Nat) : Int) + 1) (by omega) (by omega)
    have h := hgot (NewPeekBuffer (Src.bytes r)) ((r.length - 1 : Nat) : Int) r
      ⟨Src.bytes [], r⟩ (by omega) hp (by omega)
    rw [h]
    have htn : (((r.length - 1 : Nat) : Int)).toNat = r.length - 1 := by omega
    have hgd : r.getD (r.length - 1) 0 = r.getLast hr := by
      rw [List.getLast_eq_getElem r hr]
      exact List.getD_eq_getElem r 0 (by omega)
    rw [htn, hgd]

/-- Witness for C7 on the three-byte source `[4, 5, 6]`: peeking one past
the end reports end-of-stream, and peeking the last offset returns the last
byte. -/
theorem C7_peekbyte_behaviour_witness :
    PeekBuffer.PeekByte (NewPeekBuffer (Src.bytes [4, 5, 6]))
        ((([4, 5, 6] : List Nat).length + 0 : Nat) : Int) =
      ByteResult.ok 0 (some Err.eof) ⟨Src.bytes [], [4, 5, 6]⟩ ∧
    PeekBuffer.PeekByte (NewPeekBuffer (Src.bytes [4, 5, 6]))
        ((([4, 5, 6] : List Nat).length - 1 : Nat) : Int) =
      ByteResult.ok (([4, 5, 6] : List Nat).getLast (by decide)) none
        ⟨Src.bytes [], [4, 5, 6]⟩ :=
  ⟨C7_peekbyte_behaviour.2.2.2.1 [4, 5, 6] 0,
    C7_peekbyte_behaviour.2.2.2.2 [4, 5, 6] (by decide)⟩

/-- C8: aliasing contract.  The slice returned by a successful `Peek` is
`this.buffer[:have]`, so it shares storage with the pending buffer: storing
`w` at position `i < len(view)` of the view (modelled by `mutatePeeked`,
which performs the aliased store `buffer[i] = w`) makes the next `Read`
return the mutated byte at position `i`, leaves every other returned
position unchanged, and makes `ReadByte` return the mutated byte when
`i = 0`. -/
theorem C8_alias_mutation (pb : PeekBuffer) (size : Int) (v : List Nat)
    (e : Option Err) (pb' : PeekBuffer) (i w m : Nat)
    (hp : pb.Peek size = PeekResult.ok v e pb') (hi : i < v.length)
    (him : i < m) :
    (((mutatePeeked pb' i w).Read m).1)[i]? = some w ∧
    (∀ j, j ≠ i →
      (((mutatePeeked pb' i w).Read m).1)[j]? = ((pb'.Read m).1)[j]?) ∧
    (i = 0 → ((mutatePeeked pb' 0 w).ReadByte).1 = w) := by
  obtain ⟨-, -, hv, -⟩ := Peek_ok_inv pb size v e pb' hp
  have hiL : i < pb'.buffer.length := by
    have hvl : v.length ≤ pb'.buffer.length := by
      rw [hv, List.length_take]
      omega
    omega
  have hbuf : (mutatePeeked pb' i w).buffer = pb'.buffer.set i w := rfl
  have hlen : (pb'.buffer.set i w).length = pb'.buffer.length :=
    List.length_set _ _ _
  have hread : ((mutatePeeked pb' i w).Read m).1 =
      (pb'.buffer.set i w).take (min m pb'.buffer.length) := by
    unfold PeekBuffer.Read
    rw [if_pos (by rw [hbuf, hlen]; omega)]
    rw [hbuf, hlen]
  have hread' : ((pb'.Read m).1) =
      pb'.buffer.take (min m pb'.buffer.length) := by
    unfold PeekBuffer.Read
    rw [if_pos (by omega)]
  refine ⟨?_, ?_, ?_⟩
  · rw [hread]
    rw [List.getElem?_take_of_lt (by omega)]
    exact List.getElem?_set_self hiL
  · intro j hj
    rw [hread, hread']
    rcases Nat.lt_or_ge j (min m pb'.buffer.length) with hjk | hjk
    · rw [List.getElem?_take_of_lt hjk, List.getElem?_take_of_lt hjk]
      exact List.getElem?_set_ne (by omega)
    · rw [List.getElem?_eq_none, List.getElem?_eq_none]
      · simp only [List.length_take]
        omega
      · simp only [List.length_take, hlen]
        omega
  · intro hi0
    subst hi0
    rcases hb : pb'.buffer with _ | ⟨c, t⟩
    · rw [hb] at hiL
      simp at hiL
    · have hset : (mutatePeeked pb' 0 w).buffer = w :: t := by
        rw [hbuf, hb, List.set_cons_zero]
      unfold PeekBuffer.ReadByte
      rw [hset]

/-- Witness for C8: peek `[1, 2]` out of `[1, 2, 3]`, store `9` at view
position 1, and observe the mutation in the next `Read`. -/
theorem C8_alias_mutation_witness :
    (PeekBuffer.Peek (NewPeekBuffer (Src.bytes [1, 2, 3])) 2 =
        PeekResult.ok [1, 2] none ⟨Src.bytes [], [1, 2, 3]⟩ ∧
      (1 : Nat) < ([1, 2] : List Nat).length ∧ (1 : Nat) < 3) ∧
      (((mutatePeeked ⟨Src.bytes [], [1, 2, 3]⟩ 1 9).Read 3).1)[1]? =
        some 9 ∧
      (((mutatePeeked ⟨Src.bytes [], [1, 2, 3]⟩ 1 9).Read 3).1)[0]? =
        (((⟨Src.bytes [], [1, 2, 3]⟩ : PeekBuffer).Read 3).1)[0]? :=
  ⟨⟨by decide, by decide, by decide⟩,
    (C8_alias_mutation (NewPeekBuffer (Src.bytes [1, 2, 3])) 2 [1, 2] none
      ⟨Src.bytes [], [1, 2, 3]⟩ 1 9 3 (by decide) (by decide) (by decide)).1,
    (C8_alias_mutation (NewPeekBuffer (Src.bytes [1, 2, 3])) 2 [1, 2] none
      ⟨Src.bytes [], [1, 2, 3]⟩ 1 9 3 (by decide) (by decide)
      (by decide)).2.1 0 (by decide)⟩

/-! ### Stream preservation of each operation over a byte source -/

theorem Read_bytes_stream (b r : List Nat) (n : Nat) :
    ∃ out e b2 r2,
      PeekBuffer.Read ⟨Src.bytes r, b⟩ n = (out, e, ⟨Src.bytes r2, b2⟩) ∧
      out ++ (b2 ++ r2) = b ++ r := by
  rcases eq_or_ne b [] with rfl | hb
  · unfold PeekBuffer.Read
    rw [if_neg (by simp)]
    rcases eq_or_ne r [] with rfl | hr
    · exact ⟨[], some Err.eof, [], [], by simp [Src.read], rfl⟩
    · refine ⟨r.take n, none, [], r.drop n, ?_, ?_⟩
      · simp [Src.read, List.isEmpty_iff, hr]
      · simp [List.take_append_drop]
  · unfold PeekBuffer.Read
    rw [if_pos (by simpa using List.length_pos.mpr hb)]
    refine ⟨b.take (min n b.length), none, b.drop (min n b.length), r,
      rfl, ?_⟩
    rw [← List.append_assoc, List.take_append_drop]

theorem ReadByte_bytes_stream (b r : List Nat) :
    ∃ v e b2 r2,
      PeekBuffer.ReadByte ⟨Src.bytes r, b⟩ = (v, e, ⟨Src.bytes r2, b2⟩) ∧
      (if e = none then [v] else []) ++ (b2 ++ r2) = b ++ r := by
  rcases b with _ | ⟨c, t⟩
  · have hpull := readAtLeast_bytes r FillPeekBufferSize 1 (by norm_num)
      (by norm_num [FillPeekBufferSize])
    rcases eq_or_ne r [] with rfl | hr
    · refine ⟨0, some Err.eof, [], [], ?_, rfl⟩
      unfold PeekBuffer.ReadByte
      simp only [List.take_nil, List.drop_nil] at hpull
      simp only [hpull]
      norm_num
    · have htne : r.take FillPeekBufferSize ≠ [] := by
        simp [List.take_eq_nil_iff, hr, FillPeekBufferSize]
      obtain ⟨c, rest, hbs⟩ := List.exists_cons_of_ne_nil htne
      refine ⟨c, none, rest, r.drop FillPeekBufferSize, ?_, ?_⟩
      · unfold PeekBuffer.ReadByte
        simp only [hpull, hbs]
      · simp only [if_pos rfl]
        have : (c :: rest) ++ r.drop FillPeekBufferSize = r := by
          rw [← hbs, List.take_append_drop]
        simpa using this
  · exact ⟨c, none, t, r, rfl, rfl⟩

theorem peekState_bytes_stream (b r : List Nat) (n : Nat) :
    ∃ b2 r2, peekState ⟨Src.bytes r, b⟩ n = ⟨Src.bytes r2, b2⟩ ∧
      b2 ++ r2 = b ++ r := by
  refine ⟨b ++ r.take (peekPull b.length (n : Int)),
    r.drop (peekPull b.length (n : Int)), ?_, ?_⟩
  · unfold peekState
    rw [Peek_bytes b r (n : Int) (Int.natCast_nonneg n)]
  · rw [List.append_assoc, List.take_append_drop]

theorem peekByteState_bytes_stream (b r : List Nat) (n : Nat) :
    ∃ b2 r2, peekByteState ⟨Src.bytes r, b⟩ n = ⟨Src.bytes r2, b2⟩ ∧
      b2 ++ r2 = b ++ r := by
  refine ⟨b ++ r.take (peekPull b.length ((n : Int) + 1)),
    r.drop (peekPull b.length ((n : Int) + 1)), ?_, ?_⟩
  · unfold peekByteState PeekBuffer.PeekByte
    rw [Peek_bytes b r ((n : Int) + 1) (by omega)]
    by_cases hl : ((((b ++ r.take (peekPull b.length ((n : Int) + 1))).take
        ((n : Int) + 1).toNat).length : Int)) ≤ (n : Int)
    · simp only [if_pos hl]
    · simp only [if_neg hl, if_neg (by omega : ¬ ((n : Int) < 0))]
  · rw [List.append_assoc, List.take_append_drop]

/-- Every run of a call sequence over a byte source preserves the stream:
the consumed output concatenated with the final pending buffer and the
final source remainder is the initial pending buffer plus remainder. -/
theorem runOps_bytes_stream (ops : List Op) : ∀ b r,
    ∃ out b2 r2,
      runOps ⟨Src.bytes r, b⟩ ops = (out, ⟨Src.bytes r2, b2⟩) ∧
      out ++ (b2 ++ r2) = b ++ r := by
  induction ops with
  | nil =>
    intro b r
    exact ⟨[], b, r, rfl, rfl⟩
  | cons op ops ih =>
    intro b r
    cases op with
    | read n =>
      obtain ⟨o1, e, b1, r1, hstep, hs1⟩ := Read_bytes_stream b r n
      obtain ⟨o2, b2, r2, hrun, hs2⟩ := ih b1 r1
      refine ⟨o1 ++ o2, b2, r2, ?_, ?_⟩
      · simp only [runOps, hstep, hrun]
      · rw [List.append_assoc, hs2, hs1]
    | readByte =>
      obtain ⟨v, e, b1, r1, hstep, hs1⟩ := ReadByte_bytes_stream b r
      obtain ⟨o2, b2, r2, hrun, hs2⟩ := ih b1 r1
      refine ⟨(if e = none then [v] else []) ++ o2, b2, r2, ?_, ?_⟩
      · simp only [runOps, hstep, hrun]
      · rw [List.append_assoc, hs2, hs1]
    | peek n =>
      obtain ⟨b1, r1, hstep, hs1⟩ := peekState_bytes_stream b r n
      obtain ⟨o2, b2, r2, hrun, hs2⟩ := ih b1 r1
      refine ⟨o2, b2, r2, ?_, ?_⟩
      · simp only [runOps, hstep, hrun]
      · rw [hs2, hs1]
    | peekByte n =>
      obtain ⟨b1, r1, hstep, hs1⟩ := peekByteState_bytes_stream b r n
      obtain ⟨o2, b2, r2, hrun, hs2⟩ := ih b1 r1
      refine ⟨o2, b2, r2, ?_, ?_⟩
      · simp only [runOps, hstep, hrun]
      · rw [hs2, hs1]

/-- C1: sequential equivalence.  For every source content `S` and every
sequence of `Read` / `ReadByte` calls on a fresh `PeekBuffer` wrapping `S`,
with arbitrary interleaved `Peek` / `PeekByte` calls, if the consuming
calls together deliver exactly `len(S)` bytes then their concatenated
output is exactly `S`, regardless of how the calls are chunked. -/
theorem C1_sequential_equivalence (S : List Nat) (ops : List Op)
    (out : List Nat) (pbf : PeekBuffer)
    (h : runOps (NewPeekBuffer (Src.bytes S)) ops = (out, pbf))
    (hlen : out.length = S.length) : out = S := by
  obtain ⟨o, b2, r2, hrun, hs⟩ := runOps_bytes_stream ops [] S
  have hNew : NewPeekBuffer (Src.bytes S) = ⟨Src.bytes S, []⟩ := rfl
  rw [hNew, hrun] at h
  have ho : o = out := (Prod.mk.injEq _ _ _ _).mp h |>.1
  subst ho
  rw [List.nil_append] at hs
  have hnil : b2 ++ r2 = [] := by
    have hlen2 := congrArg List.length hs
    rw [List.length_append] at hlen2
    exact List.eq_nil_of_length_eq_zero (by omega)
  rw [hnil, List.append_nil] at hs
  exact hs

/-- Witness for C1: peek 2, bulk-read 2, then read a byte out of `[1, 2, 3]`;
the three consuming bytes are exactly the source. -/
theorem C1_sequential_equivalence_witness :
    (runOps (NewPeekBuffer (Src.bytes [1, 2, 3]))
        [Op.peek 2, Op.read 2, Op.readByte] =
      ([1, 2, 3], ⟨Src.bytes [], []⟩) ∧
      ([1, 2, 3] : List Nat).length = ([1, 2, 3] : List Nat).length) ∧
      ([1, 2, 3] : List Nat) = [1, 2, 3] :=
  ⟨⟨by decide, rfl⟩,
    C1_sequential_equivalence [1, 2, 3] [Op.peek 2, Op.read 2, Op.readByte]
      [1, 2, 3] ⟨Src.bytes [], []⟩ (by decide) rfl⟩

/-! ### Peek view and buffer monotonicity -/

theorem Peek_buffer_view_mono (pb : PeekBuffer) (size : Int) (v : List Nat)
    (e : Option Err) (pb' : PeekBuffer)
    (h : pb.Peek size = PeekResult.ok v e pb') :
    pb.buffer <+: pb'.buffer ∧ v <+: pb'.buffer := by
  obtain ⟨-, ⟨t, ht⟩, hv, -⟩ := Peek_ok_inv pb size v e pb' h
  constructor
  · exact ⟨t, ht.symm⟩
  · rw [hv]
    exact List.take_prefix _ _

/-- All views produced by a chain of peeks, and the initial pending buffer,
are prefixes of one common list. -/
theorem peekViews_bounded (ns : List Nat) : ∀ (pb : PeekBuffer),
    ∃ B : List Nat, (∀ v ∈ peekViews pb ns, v <+: B) ∧ pb.buffer <+: B := by
  induction ns with
  | nil =>
    intro pb
    exact ⟨pb.buffer, by simp [peekViews], List.prefix_refl _⟩
  | cons n ns ih =>
    intro pb
    obtain ⟨v0, e0, pb', hp⟩ := Peek_nonneg_ok pb (n : Int) (Int.natCast_nonneg n)
    obtain ⟨hbuf, hview⟩ := Peek_buffer_view_mono pb (n : Int) v0 e0 pb' hp
    obtain ⟨B, hall, hb⟩ := ih pb'
    refine ⟨B, ?_, hbuf.trans hb⟩
    intro v hv
    unfold peekViews at hv
    rw [hp] at hv
    rcases List.mem_cons.mp hv with rfl | hv
    · exact hview.trans hb
    · exact hall v hv

theorem Read_eq_of_buffer_ne_nil (pb : PeekBuffer) (plen : Nat)
    (h : pb.buffer ≠ []) :
    pb.Read plen =
      (pb.buffer.take (min plen pb.buffer.length), none,
        ⟨pb.reader, pb.buffer.drop (min plen pb.buffer.length)⟩) := by
  unfold PeekBuffer.Read
  rw [if_pos (List.length_pos.mpr h)]

theorem Read_eq_of_buffer_nil (pb : PeekBuffer) (plen : Nat)
    (h : pb.buffer = []) :
    pb.Read plen =
      ((pb.reader.read plen).1, (pb.reader.read plen).2.1,
        ⟨(pb.reader.read plen).2.2, pb.buffer⟩) := by
  unfold PeekBuffer.Read
  rw [if_neg (by rw [h]; simp)]

/-- C3 counterexample: a successful `Peek` CAN change what a subsequent
`Read` returns.  On a fresh `PeekBuffer` over 4097 bytes, `Read` into a
4097-byte buffer returns all 4097 bytes; after a successful `Peek(1)`
(which pulls one whole 4096-byte fill unit into the pending buffer), the
same `Read` returns only the 4096 buffered bytes.  The returned byte
sequences differ, refuting the conjunct "a successful Peek does not change
what a subsequent Read returns" of the claim at this concrete input. -/
theorem C3_counterexample :
    PeekBuffer.Peek (NewPeekBuffer (Src.bytes (List.replicate 4097 7))) 1 =
      PeekResult.ok [7] none
        ⟨Src.bytes (List.replicate 1 7), List.replicate 4096 7⟩ ∧
    ((⟨Src.bytes (List.replicate 1 7), List.replicate 4096 7⟩ :
        PeekBuffer).Read 4097).1 ≠
      ((NewPeekBuffer (Src.bytes (List.replicate 4097 7))).Read 4097).1 := by
  have h1 : (List.replicate 4097 7).take 4096 = List.replicate 4096 7 := by
    rw [List.take_replicate]
    congr 1
  have h2 : (List.replicate 4097 7).drop 4096 = List.replicate 1 7 := by
    rw [List.drop_replicate]
  constructor
  · have hk : peekPull (([] : List Nat)).length 1 = 4096 := by decide
    have h := Peek_bytes [] (List.replicate 4097 7) 1 (by norm_num)
    rw [hk, List.nil_append, h1, h2] at h
    have h3 : (List.replicate 4096 7).take (1 : Int).toNat = [7] := by
      rw [List.take_replicate]
      decide
    rw [h3] at h
    exact h
  · have key1 : ∀ (s1 : Src) (B : List Nat), B.length = 4096 →
        ((⟨s1, B⟩ : PeekBuffer).Read 4097).1 = B := by
      intro s1 B hB
      have hBne : B ≠ [] := by
        intro hc
        rw [hc] at hB
        simp at hB
      rw [Read_eq_of_buffer_ne_nil ⟨s1, B⟩ 4097 hBne]
      show B.take (min 4097 B.length) = B
      rw [hB, Nat.min_eq_right (by omega)]
      exact List.take_of_length_le hB.le
    have key2 : ∀ (R : List Nat), R.length = 4097 →
        ((⟨Src.bytes R, []⟩ : PeekBuffer).Read 4097).1 = R := by
      intro R hR
      have hRne : R ≠ [] := by
        intro hc
        rw [hc] at hR
        simp at hR
      rw [Read_eq_of_buffer_nil ⟨Src.bytes R, []⟩ 4097 rfl]
      show (Src.read (Src.bytes R) 4097).1 = R
      simp only [Src.read, List.isEmpty_eq_true, hRne, if_false]
      show R.take 4097 = R
      exact List.take_of_length_le (by omega)
    rw [key1 (Src.bytes (List.replicate 1 7)) (List.replicate 4096 7)
      (List.length_replicate 4096 7)]
    have hfresh : NewPeekBuffer (Src.bytes (List.replicate 4097 7)) =
        (⟨Src.bytes (List.replicate 4097 7), []⟩ : PeekBuffer) := rfl
    rw [hfresh, key2 (List.replicate 4097 7) (List.length_replicate 4097 7)]
    intro h
    have hl := congrArg List.length h
    rw [List.length_replicate, List.length_replicate] at hl
    omega

/-- C3 (amended): Peek non-advancement and monotonic growth.  (1) Any chain
of `Peek` calls with no intervening consuming read returns views that are
pairwise prefix-comparable, hence agree byte-for-byte on their overlapping
prefix; (2) over a byte source, `Peek(a)` then `Peek(b)` with `a ≤ b`
yields a second view whose first `a` bytes equal the first view; (3) `Peek`
never removes bytes from the pending buffer; and (4) — the amended part —
after a successful `Peek` over a byte source, a subsequent `Read` returns
bytes that agree with what it would have returned without the `Peek` on
their common length (one result is a prefix of the other; the stream
position is unchanged), though the returned byte count may differ. -/
theorem C3_peek_non_advancement_amended :
    (∀ (pb : PeekBuffer) (ns : List Nat) (v w : List Nat),
      v ∈ peekViews pb ns → w ∈ peekViews pb ns → v <+: w ∨ w <+: v) ∧
    (∀ (b r : List Nat) (a c : Int) (va : List Nat) (ea : Option Err)
      (pb1 : PeekBuffer) (vb : List Nat) (eb : Option Err)
      (pb2 : PeekBuffer), 0 ≤ a → a ≤ c →
      PeekBuffer.Peek ⟨Src.bytes r, b⟩ a = PeekResult.ok va ea pb1 →
      pb1.Peek c = PeekResult.ok vb eb pb2 →
      vb.take a.toNat = va) ∧
    (∀ (pb : PeekBuffer) (size : Int) (v : List Nat) (e : Option Err)
      (pb' : PeekBuffer), pb.Peek size = PeekResult.ok v e pb' →
      pb.buffer <+: pb'.buffer) ∧
    (∀ (b r : List Nat) (size : Int) (v : List Nat) (e : Option Err)
      (pb' : PeekBuffer) (m : Nat), 0 ≤ size →
      PeekBuffer.Peek ⟨Src.bytes r, b⟩ size = PeekResult.ok v e pb' →
      (pb'.Read m).1 <+: ((⟨Src.bytes r, b⟩ : PeekBuffer).Read m).1 ∨
      ((⟨Src.bytes r, b⟩ : PeekBuffer).Read m).1 <+: (pb'.Read m).1) := by
  refine ⟨?_, ?_, ?_, ?_⟩
  · intro pb ns v w hv hw
    obtain ⟨B, hall, -⟩ := peekViews_bounded ns pb
    exact prefix_total (hall v hv) (hall w hw)
  · intro b r a c va ea pb1 vb eb pb2 ha hac h1 h2
    rw [Peek_bytes b r a ha] at h1
    injection h1 with hv1 he1 hp1
    subst hp1
    rw [Peek_bytes (b ++ r.take (peekPull b.length a))
      (r.drop (peekPull b.length a)) c (by omega)] at h2
    injection h2 with hv2 he2 hp2
    subst hv1
    subst hv2
    rw [List.take_take, Nat.min_eq_left (by omega)]
    rcases Nat.lt_or_ge (b ++ r.take (peekPull b.length a)).length a.toNat
      with hlt | hge2
    · have hxnil : r.drop (peekPull b.length a) = [] := by
        by_cases h0 : a.toNat ≤ b.length
        · exfalso
          have hk0 : peekPull b.length a = 0 := by
            unfold peekPull
            rw [if_pos h0]
          rw [hk0, List.take_zero, List.append_nil] at hlt
          omega
        · have hkval : peekPull b.length a =
              roundUpFill (a.toNat - b.length) := by
            unfold peekPull
            rw [if_neg h0]
          have hkge := roundUpFill_le (a.toNat - b.length)
          have hlen : (b ++ r.take (peekPull b.length a)).length =
              b.length + min (peekPull b.length a) r.length := by
            rw [List.length_append, List.length_take]
          rcases Nat.le_total (peekPull b.length a) r.length with hk | hk
          · exfalso
            rw [Nat.min_eq_left hk] at hlen
            omega
          · exact List.drop_eq_nil_of_le hk
      rw [hxnil, List.take_nil, List.append_nil]
    · rw [List.take_append_of_le_length hge2]
  · intro pb size v e pb' h
    exact (Peek_buffer_view_mono pb size v e pb' h).1
  · intro b r size v e pb' m hs hp
    rw [Peek_bytes b r size hs] at hp
    injection hp with hv he hpb
    subst hpb
    rcases eq_or_ne b [] with rfl | hb
    · rcases eq_or_ne (r.take (peekPull ([] : List Nat).length size)) []
        with htk | htk
      · have hdk : r.drop (peekPull ([] : List Nat).length size) = r := by
          rcases List.take_eq_nil_iff.mp htk with h0 | h0
          · rw [h0, List.drop_zero]
          · rw [h0, List.drop_nil]
        simp only [htk, hdk, List.append_nil]
        exact Or.inl (List.prefix_refl _)
      · left
        have hrne : r ≠ [] := by
          intro hc
          rw [hc, List.take_nil] at htk
          exact htk rfl
        rw [Read_eq_of_buffer_ne_nil
          ⟨Src.bytes (r.drop (peekPull ([] : List Nat).length size)),
            [] ++ r.take (peekPull ([] : List Nat).length size)⟩ m
          (by simpa using htk)]
        rw [Read_eq_of_buffer_nil ⟨Src.bytes r, []⟩ m rfl]
        show ([] ++ r.take (peekPull ([] : List Nat).length size)).take
            (min m ([] ++ r.take (peekPull ([] : List Nat).length size)).length)
          <+: (Src.read (Src.bytes r) m).1
        have hsrc : (Src.read (Src.bytes r) m).1 = r.take m := by
          simp [Src.read, List.isEmpty_iff, hrne]
        rw [hsrc, List.nil_append, take_min_length, List.take_take]
        exact List.take_prefix_take_left r (Nat.min_le_left m _)
    · right
      have hBne : b ++ r.take (peekPull b.length size) ≠ [] := by
        simp [hb]
      rw [Read_eq_of_buffer_ne_nil
        ⟨Src.bytes (r.drop (peekPull b.length size)),
          b ++ r.take (peekPull b.length size)⟩ m hBne]
      rw [Read_eq_of_buffer_ne_nil ⟨Src.bytes r, b⟩ m hb]
      show b.take (min m b.length) <+:
        (b ++ r.take (peekPull b.length size)).take
          (min m (b ++ r.take (peekPull b.length size)).length)
      rw [take_min_length, take_min_length]
      exact List.IsPrefix.take ⟨r.take (peekPull b.length size), rfl⟩ m

/-- Witness for the amended C3 on the source `[1, 2, 3]`: the views of the
peek chain `[2, 3]` are comparable, `Peek(2)` then `Peek(3)` agree on the
first two bytes, the pending buffer only grows, and a `Read` after the peek
is prefix-consistent with a `Read` without it. -/
theorem C3_peek_non_advancement_amended_witness :
    (([1, 2] : List Nat) ∈
        peekViews (NewPeekBuffer (Src.bytes [1, 2, 3])) [2, 3] ∧
      ([1, 2, 3] : List Nat) ∈
        peekViews (NewPeekBuffer (Src.bytes [1, 2, 3])) [2, 3] ∧
      (([1, 2] : List Nat) <+: [1, 2, 3] ∨
        ([1, 2, 3] : List Nat) <+: [1, 2])) ∧
    (PeekBuffer.Peek ⟨Src.bytes [1, 2, 3], []⟩ 2 =
        PeekResult.ok [1, 2] none ⟨Src.bytes [], [1, 2, 3]⟩ ∧
      PeekBuffer.Peek ⟨Src.bytes [], [1, 2, 3]⟩ 3 =
        PeekResult.ok [1, 2, 3] none ⟨Src.bytes [], [1, 2, 3]⟩ ∧
      ([1, 2, 3] : List Nat).take ((2 : Int)).toNat = [1, 2]) ∧
    (([] : List Nat) <+: [1, 2, 3]) ∧
    (((⟨Src.bytes [], [1, 2, 3]⟩ : PeekBuffer).Read 1).1 <+:
        ((⟨Src.bytes [1, 2, 3], []⟩ : PeekBuffer).Read 1).1 ∨
      ((⟨Src.bytes [1, 2, 3], []⟩ : PeekBuffer).Read 1).1 <+:
        ((⟨Src.bytes [], [1, 2, 3]⟩ : PeekBuffer).Read 1).1) :=
  ⟨⟨by decide, by decide,
      C3_peek_non_advancement_amended.1 (NewPeekBuffer (Src.bytes [1, 2, 3]))
        [2, 3] [1, 2] [1, 2, 3] (by decide) (by decide)⟩,
    ⟨by decide, by decide,
      C3_peek_non_advancement_amended.2.1 [] [1, 2, 3] 2 3 [1, 2] none
        ⟨Src.bytes [], [1, 2, 3]⟩ [1, 2, 3] none ⟨Src.bytes [], [1, 2, 3]⟩
        (by decide) (by decide) (by decide) (by decide)⟩,
    C3_peek_non_advancement_amended.2.2.1 ⟨Src.bytes [1, 2, 3], []⟩ 2 [1, 2]
      none ⟨Src.bytes [], [1, 2, 3]⟩ (by decide),
    C3_peek_non_advancement_amended.2.2.2 [] [1, 2, 3] 2 [1, 2] none
      ⟨Src.bytes [], [1, 2, 3]⟩ 1 (by decide) (by decide)⟩
